import Mathlib

/-!
Shallow embedding of the portfolio rebalancer (`rebalancer.py`).

Python floats are modelled as exact rationals (ℚ); Python dicts are
modelled as insertion-ordered association lists (`List (String × ℚ)`),
with lookup returning the first matching key (Python dicts have unique
keys; dict-ness assumptions appear as `Nodup` hypotheses where needed).
Mutation of `Holding.shares` is modelled by explicit state passing on
the list of holdings; a Python `AssertionError` / `KeyError` is
modelled by `Option` (`none` = the exception propagates).
-/

namespace Rebalancer

/-- One position, as built by `Holding.__init__` (`rebalancer.py` 46-77).
`composition` is the type-to-weight dict, `current_price` the price fixed
at construction.  The external price fetch is out of scope: prices come
with the input record (for cash the constructor pins price to 1). -/
structure Holding where
  symbol : String
  composition : List (String × ℚ)
  shares : ℚ
  current_price : ℚ
  buy_additional : Bool
deriving DecidableEq, Repr

/-- `Holding.is_cash_holding` (line 76-77): the composition dict has exactly
one key and that key is the string cash. -/
def compIsCash : List (String × ℚ) → Bool
  | [(k, _)] => k == "cash"
  | _ => false

def Holding.is_cash_holding (h : Holding) : Bool :=
  compIsCash h.composition

/-- `Holding.current_value` (line 85-87). -/
def Holding.current_value (h : Holding) : ℚ :=
  h.shares * h.current_price

/-- `Holding.get_current_values_by_type` (line 89-93): distribute the
holding's value over its composition keys by weight. -/
def Holding.get_current_values_by_type (h : Holding) : List (String × ℚ) :=
  h.composition.map (fun kw => (kw.1, kw.2 * h.current_value))

/-- An input record, post JSON parsing (`json_holding` in the source).
The `type: t` shorthand is the composition `[(t, 1)]`; `buy_additional`
defaults to true and `current_price` to the fetched price upstream, so
both appear here as plain fields. -/
structure JsonHolding where
  symbol : String
  shares : ℚ
  buy_additional : Bool
  composition : List (String × ℚ)
  current_price : ℚ
deriving DecidableEq, Repr

/-- Sum of the values of an association-list dict. -/
def sumValues (l : List (String × ℚ)) : ℚ :=
  (l.map Prod.snd).sum

/-- `Holding.__init__` (lines 46-74) on a record whose composition assert
already passed: a cash record gets symbol cash and price 1, any other
record keeps its own symbol and price. -/
def mkHolding (r : JsonHolding) : Holding :=
  if compIsCash r.composition then
    { symbol := "cash", composition := r.composition, shares := r.shares,
      current_price := 1, buy_additional := r.buy_additional }
  else
    { symbol := r.symbol, composition := r.composition, shares := r.shares,
      current_price := r.current_price, buy_additional := r.buy_additional }

/-- The fresh `CashHolding()` the `Holdings` constructor starts from
(lines 114-120), with `shares` already accumulated to `v` by the
`CashHolding.add` calls (lines 122-124). -/
def mkCashHolding (v : ℚ) : Holding :=
  { symbol := "cash", composition := [("cash", 1)], shares := v,
    current_price := 1, buy_additional := false }

/-- The portfolio aggregate (`Holdings`).  `records` is the stored
`json_holdings` used by `copy`; `holdings` is the holdings list, whose
head is always the merged cash position. -/
structure Holdings where
  records : List JsonHolding
  holdings : List Holding
deriving DecidableEq, Repr

/-- No symbol repeats (the `symbol not in symbol_map` assert, checked on
each insertion). -/
def nodupKeys : List String → Bool
  | [] => true
  | s :: t => !(t.contains s) && nodupKeys t

/-- `Holdings.__init__` (lines 127-152).  `none` models the constructor
assertions failing: a composition whose weights do not sum to 1
(line 64), or a duplicate symbol in `symbol_map` (line 141), which also
fires when a non-cash record carries the reserved symbol cash.  On
success the holdings list is the fresh cash position (with all cash
records merged into it) followed by the non-cash holdings in input
order. -/
def Holdings.init (records : List JsonHolding) : Option Holdings :=
  let hs := records.map mkHolding
  let cashHs := hs.filter (fun h => h.is_cash_holding)
  let nonCash := hs.filter (fun h => !h.is_cash_holding)
  if records.all (fun r => sumValues r.composition == 1)
      && nodupKeys (nonCash.map Holding.symbol)
      && !((nonCash.map Holding.symbol).contains "cash") then
    some { records := records,
           holdings := mkCashHolding ((cashHs.map Holding.shares).sum) :: nonCash }
  else
    none

/-- `Holdings.copy` (lines 154-155): reconstruct from the stored records. -/
def Holdings.copy (H : Holdings) : Option Holdings :=
  Holdings.init H.records

/-- `Holdings.cash` (lines 157-159): the shares of the cash position,
which the constructor put at the head of the holdings list. -/
def cashOf (hs : List Holding) : ℚ :=
  ((hs[0]?).map Holding.shares).getD 0

def Holdings.cash (H : Holdings) : ℚ :=
  cashOf H.holdings

/-- `Holdings.current_value` (lines 161-166). -/
def totalValue (hs : List Holding) : ℚ :=
  (hs.map Holding.current_value).sum

def Holdings.current_value (H : Holdings) : ℚ :=
  totalValue H.holdings

/-- Add `v` into the first occurrence of key `k` (the update arm of the
dict accumulation `d[t] += v`). -/
def bump : List (String × ℚ) → String → ℚ → List (String × ℚ)
  | [], _, _ => []
  | (k', v') :: t, k, v =>
    if k' = k then (k', v' + v) :: t else (k', v') :: bump t k v

/-- One step of dict accumulation: `if t not in d: d[t] = 0.0; d[t] += v`
(append a fresh key, or add into an existing one). -/
def addInto (l : List (String × ℚ)) (kv : String × ℚ) : List (String × ℚ) :=
  if (l.lookup kv.1).isSome then bump l kv.1 kv.2 else l ++ [kv]

/-- `Holdings.get_current_value_by_type` (lines 168-176): accumulate every
holding's per-type values into one dict. -/
def valueByType (hs : List Holding) : List (String × ℚ) :=
  hs.foldl (fun acc h => h.get_current_values_by_type.foldl addInto acc) []

def Holdings.get_current_value_by_type (H : Holdings) : List (String × ℚ) :=
  valueByType H.holdings

/-- The dict underlying a `Proportions` object: an insertion-ordered
association list with unique keys. -/
abbrev Proportions := List (String × ℚ)

def keysOf (p : Proportions) : List String :=
  p.map Prod.fst

/-- `Proportions.get_type` (lines 312-313): a plain dict lookup; `none`
models the `KeyError` on an absent type. -/
def Proportions.get_type (p : Proportions) (t : String) : Option ℚ :=
  p.lookup t

/-- Dict lookup with default 0 — the value a key contributes where the
source only reads keys it knows to be present. -/
def lookupD (p : Proportions) (k : String) : ℚ :=
  (p.lookup k).getD 0

/-- One step of `Proportions.diff` (lines 317-321): subtract in place
when the key is already there, else append `0.0 - other[key]`. -/
def diffStep (acc : Proportions) (kv : String × ℚ) : Proportions :=
  if (acc.lookup kv.1).isSome then bump acc kv.1 (-kv.2)
  else acc ++ [(kv.1, 0 - kv.2)]

/-- `Proportions.diff` (lines 315-322): start from a copy of `self` and,
for each key of `other`, subtract in place or append the negation. -/
def Proportions.diff (a b : Proportions) : Proportions :=
  b.foldl diffStep a

/-- `Holdings.get_current_allocations` (lines 178-184): the per-type value
dict normalized by total value.  (Total value 0 is a `ZeroDivisionError`
in the source; claims about allocations assume it nonzero.) -/
def allocationsL (hs : List Holding) : Proportions :=
  (valueByType hs).map (fun kv => (kv.1, kv.2 / totalValue hs))

def Holdings.get_current_allocations (H : Holdings) : Proportions :=
  allocationsL H.holdings

/-- `shares += d` on the holding at index `i` (out-of-range: no change). -/
def addShares : List Holding → Nat → ℚ → List Holding
  | [], _, _ => []
  | h :: t, 0, d => { h with shares := h.shares + d } :: t
  | h :: t, i + 1, d => h :: addShares t i d

/-- Price of the holding at index `i` (0 when out of range). -/
def priceAt (hs : List Holding) (i : Nat) : ℚ :=
  ((hs[i]?).map Holding.current_price).getD 0

/-- Whether `types_to_buy` has key `t` (lines 145-152): some holding with
`buy_additional` has `t` in its composition, and `t` is neither cash nor
the sentinel other. -/
def hasTypeKey (hs : List Holding) (t : String) : Bool :=
  t ≠ "cash" && t ≠ "other"
    && hs.any (fun h => h.buy_additional && (h.composition.lookup t).isSome)

/-- `types_to_buy[t]` as indices into the holdings list, in list order
(the Python list holds aliases of the same `Holding` objects). -/
def typesToBuyIdx (hs : List Holding) (t : String) : List Nat :=
  (List.range hs.length).filter (fun i =>
    match hs[i]? with
    | some h => h.buy_additional && (h.composition.lookup t).isSome
    | none => false)

/-- The affordability filter of `buy_type` (lines 189-193): keep the
candidates whose lot cost `price * num_shares` is strictly below cash. -/
def affordableIdx (hs : List Holding) (t : String) (n : ℚ) : List Nat :=
  (typesToBuyIdx hs t).filter (fun i => priceAt hs i * n < cashOf hs)

/-- The `diffs_after_purchase` list of `buy_type` (lines 198-204): for
each affordable candidate, simulate the purchase (buy, measure, sell
back) and record the absolute distance of the resulting allocation of
`t` from the target. -/
def diffsAfterPurchase (hs : List Holding) (t : String) (target n : ℚ) :
    List (ℚ × Nat) :=
  (affordableIdx hs t n).map
    (fun i => (|lookupD (allocationsL (addShares hs i n)) t - target|, i))

/-- Commit the purchase (lines 207-209): add `n` shares at index `i`,
then remove `price * n` from the cash position at the head. -/
def applyBuy (H : Holdings) (i : Nat) (n : ℚ) : Holdings :=
  { H with
    holdings := addShares (addShares H.holdings i n) 0 (-(priceAt H.holdings i * n)) }

/-- `Holdings.buy_type` (lines 186-212).  `none` is the `KeyError` of
`self.types_to_buy[type_to_buy]` when the eligibility index has no entry
for the type; `some (false, H)` the no-affordable-candidate failure
return; `some (true, _)` a committed purchase.  NOTE (faithful to the
source): the committed candidate is `diffs_after_purchase[0][1]` — the
first affordable candidate — the simulated distances are computed and
then never compared. -/
def Holdings.buy_type (H : Holdings) (t : String) (target : ℚ) (n : ℚ) :
    Option (Bool × Holdings) :=
  if hasTypeKey H.holdings t then
    let afford := affordableIdx H.holdings t n
    if afford.isEmpty then some (false, H)
    else
      match diffsAfterPurchase H.holdings t target n with
      | [] => some (false, H)
      | (_, i) :: _ => some (true, applyBuy H i n)
  else
    none

/-- `Holdings.sell_type` (lines 214-220), with the `random.choice` over
`types_to_buy[t]` made explicit as the choice index `k` (the source
draws `k` uniformly; any in-range `k` is a possible run).  `none` is the
`KeyError` on a missing index key or an out-of-range choice. -/
def Holdings.sell_type (H : Holdings) (t : String) (k : Nat) (n : ℚ) :
    Option Holdings :=
  if hasTypeKey H.holdings t then
    match (typesToBuyIdx H.holdings t)[k]? with
    | some i =>
        some { H with
               holdings := addShares (addShares H.holdings i (-n)) 0
                             (priceAt H.holdings i * n) }
    | none => none
  else
    none

/-- `Holdings.get_shares_diffs` (lines 222-230): for each holding of
`other` (in order), the share delta versus `self`, where a symbol absent
from `self` contributes `other`'s full share count.  `symbol_map` lookup
is the first holding with that symbol. -/
def symbolLookup (H : Holdings) (s : String) : Option Holding :=
  H.holdings.find? (fun h => h.symbol == s)

def Holdings.get_shares_diffs (H other : Holdings) : List (ℚ × String) :=
  other.holdings.map (fun oh =>
    match symbolLookup H oh.symbol with
    | none => (oh.shares, oh.symbol)
    | some h => (oh.shares - h.shares, oh.symbol))

/-- `total_symbol_costs` of `limit_prices` (line 249): the sum of
`self`'s current prices over the non-cash, non-other symbols whose share
delta is NONZERO (sales included).  `none` models the `KeyError` when a
qualifying symbol is absent from `self.symbol_map`. -/
def sumDiffPrices (H : Holdings) : List (ℚ × String) → Option ℚ
  | [] => some 0
  | (d, s) :: rest =>
    if s ≠ "cash" ∧ s ≠ "other" ∧ d ≠ 0 then
      match symbolLookup H s, sumDiffPrices H rest with
      | some h, some acc => some (h.current_price + acc)
      | _, _ => none
    else
      sumDiffPrices H rest

/-- The `limit_prices` output list (lines 255-257): one entry per symbol
with strictly positive delta (non-cash, non-other), in first-encounter
order, with suggested price
`(price / total) * other.cash / delta + price`. -/
def limitEntries (H : Holdings) (total otherCash : ℚ) :
    List (ℚ × String) → Option (List (ℚ × String))
  | [] => some []
  | (d, s) :: rest =>
    if s ≠ "cash" ∧ s ≠ "other" ∧ d > 0 then
      match symbolLookup H s, limitEntries H total otherCash rest with
      | some h, some l =>
          some ((h.current_price / total * otherCash / d + h.current_price, s) :: l)
      | _, _ => none
    else
      limitEntries H total otherCash rest

/-- `Holdings.limit_prices` (lines 244-261), as the list of
(limit price, symbol) pairs the source computes and prints. -/
def Holdings.limit_prices (H other : Holdings) : Option (List (ℚ × String)) :=
  let sd := H.get_shares_diffs other
  match sumDiffPrices H sd with
  | none => none
  | some total => limitEntries H total other.cash sd

/-- Python tuple comparison on `(diff, type)` pairs: strict lexicographic
order, the string compared code point by code point. -/
def pairLt (a b : ℚ × String) : Bool :=
  decide (a.1 < b.1 ∨ (a.1 = b.1 ∧ a.2 < b.2))

/-- Insert into a descending-sorted list, after every element that is
not strictly smaller (so equal elements keep their original relative
order, as with Python's stable sort). -/
def insertDesc (x : ℚ × String) : List (ℚ × String) → List (ℚ × String)
  | [] => [x]
  | y :: t => if pairLt y x then x :: y :: t else y :: insertDesc x t

/-- `sorted([(y, x) for x, y in d.items()], reverse=True)` (line 287):
the (value, key) pairs of the diff dict, descending and stable. -/
def sortDiffs (d : Proportions) : List (ℚ × String) :=
  (d.map (fun kv => (kv.2, kv.1))).foldr insertDesc []

/-- The inner `for` of the buy loop (lines 289-293): walk the sorted
diffs and attempt `buy_type` on each non-cash, non-other type, stopping
at the first success.  `none` models a propagating exception — the
`KeyError` of `targets.get_type` on a type missing from the targets
(line 291), or one raised inside `buy_type`;
`some none` means the pass ended with no successful purchase;
`some (some H')` a successful purchase leaving state `H'`. -/
def tryTypes (H : Holdings) (targets : Proportions) :
    List (ℚ × String) → Option (Option Holdings)
  | [] => some none
  | (_, t) :: rest =>
    if t ≠ "cash" ∧ t ≠ "other" then
      match targets.get_type t with
      | none => none
      | some target =>
        match H.buy_type t target 1 with
        | none => none
        | some (false, _) => tryTypes H targets rest
        | some (true, H') => some (some H')
    else
      tryTypes H targets rest

/-- One iteration of the buy-phase `while True` (lines 285-295). -/
def buyPass (H : Holdings) (targets : Proportions) : Option (Option Holdings) :=
  tryTypes H targets (sortDiffs (targets.diff H.get_current_allocations))

/-- Outcome of running the buy loop with bounded fuel.  `err` is a
propagating Python exception, `done` the normal exit through
`purchase_successful == False`; `fuelOut` is an artifact of the bounded
model (the source loop is unbounded) and marks fuel exhaustion. -/
inductive LoopResult where
  | err : LoopResult
  | done : Holdings → LoopResult
  | fuelOut : LoopResult
deriving DecidableEq, Repr

/-- The buy-phase `while True` loop (lines 285-295), fuelled. -/
def buyLoop : Nat → Holdings → Proportions → LoopResult
  | 0, _, _ => .fuelOut
  | fuel + 1, H, targets =>
    match buyPass H targets with
    | none => .err
    | some none => .done H
    | some (some H') => buyLoop fuel H' targets

/-- `Holdings.spend_cash_to_balance` on its default `sell_shares=False`
path (lines 263-264 and 285-303): build the working copy from the stored
records and run the buy loop on it; the remaining statements only read
`self` and the working copy for reporting.  The returned pair is
(`self` as it stands after the call, the loop outcome on the working
copy); `none` models the constructor assertions failing inside `copy`. -/
def Holdings.spend_cash_to_balance (H : Holdings) (targets : Proportions)
    (fuel : Nat) : Option (Holdings × LoopResult) :=
  (H.copy).map (fun w => (H, buyLoop fuel w targets))

/-- The structural facts about the cash position that the `Holdings`
constructor guarantees and the trading operations rely on: the holdings
list starts with the cash position, whose price is pinned to 1 and which
is never purchase-eligible. -/
def WF (H : Holdings) : Prop :=
  (H.holdings[0]?).map (fun h => (h.current_price, h.buy_additional))
    = some ((1 : ℚ), false)

/-- The holdings that appear in the eligibility index under some type:
purchase-eligible holdings carrying at least one non-cash, non-other
type.  Their cheapest price is the spec's `min_eligible_lot_price`. -/
def eligibleIdx (hs : List Holding) : List Nat :=
  (List.range hs.length).filter (fun i =>
    match hs[i]? with
    | some h => h.buy_additional
        && h.composition.any (fun kw => kw.1 ≠ "cash" && kw.1 ≠ "other")
    | none => false)

/-- The number of types examined by one pass of the buy loop: the keys
of `targets.diff(currentAllocation())`. -/
def numTypes (H : Holdings) (targets : Proportions) : Nat :=
  (keysOf (targets.diff H.get_current_allocations)).length

/-- Modelled from the spec: the cost-weight denominator as §4.2 words
it — the sum of current prices over symbols with a strictly POSITIVE
share delta — to be compared with `sumDiffPrices`, which the source
computes over NONZERO deltas. -/
def sumPosDiffPrices (H : Holdings) : List (ℚ × String) → Option ℚ
  | [] => some 0
  | (d, s) :: rest =>
    if s ≠ "cash" ∧ s ≠ "other" ∧ d > 0 then
      match symbolLookup H s, sumPosDiffPrices H rest with
      | some h, some acc => some (h.current_price + acc)
      | _, _ => none
    else
      sumPosDiffPrices H rest

/-! Concrete portfolios used as witnesses and counterexamples. -/

/-- A cash input record of `v` dollars. -/
def cashRecord (v : ℚ) : JsonHolding :=
  { symbol := "cash", shares := v, buy_additional := true,
    composition := [("cash", 1)], current_price := 1 }

/-- A pure-equity input record. -/
def equityRecord (s : String) (sh p : ℚ) (ba : Bool) : JsonHolding :=
  { symbol := s, shares := sh, buy_additional := ba,
    composition := [("equity", 1)], current_price := p }

/-- The holding `mkHolding` builds from `equityRecord s sh p ba`. -/
def equityHolding (s : String) (sh p : ℚ) (ba : Bool) : Holding :=
  { symbol := s, composition := [("equity", 1)], shares := sh,
    current_price := p, buy_additional := ba }

/-- $1000 cash, stock A at $100 (0 shares), stock B at $500 (0 shares),
both pure equity.  Simulated distances to a 1/2 equity target:
buying A gives |1/11 - 1/2| = 9/22, buying B gives |1/3 - 1/2| = 1/6,
so B is the strict minimizer while A is first in index order. -/
def exC1recs : List JsonHolding :=
  [cashRecord 1000, equityRecord "A" 0 100 true, equityRecord "B" 0 500 true]

def exC1H : Holdings :=
  { records := exC1recs,
    holdings := [mkCashHolding 1000, equityHolding "A" 0 100 true,
                 equityHolding "B" 0 500 true] }

/-- `exC1H` after the source's actual purchase (one share of A). -/
def exC1bought : Holdings :=
  { records := exC1recs,
    holdings := [mkCashHolding 900, equityHolding "A" 1 100 true,
                 equityHolding "B" 0 500 true] }

/-- `exC1H` after `sell_type` with choice index 0 (one share of A sold
short; the source enforces no floor on shares). -/
def exC1sold : Holdings :=
  { records := exC1recs,
    holdings := [mkCashHolding 1100, equityHolding "A" (-1) 100 true,
                 equityHolding "B" 0 500 true] }

/-- $100 cash and one equity holding marked `buy_additional: false`:
`types_to_buy` ends up with no entry for the equity type. -/
def exC3recs : List JsonHolding :=
  [cashRecord 100, equityRecord "A" 1 10 false]

def exC3H : Holdings :=
  { records := exC3recs,
    holdings := [mkCashHolding 100, equityHolding "A" 1 10 false] }

/-- $10 cash and one eligible equity holding at $100: the equity type is
in the eligibility index but no candidate is affordable. -/
def exPoorRecs : List JsonHolding :=
  [cashRecord 10, equityRecord "A" 0 100 true]

def exPoorH : Holdings :=
  { records := exPoorRecs,
    holdings := [mkCashHolding 10, equityHolding "A" 0 100 true] }

/-- Original side of the C2 counterexample: $100 cash, one share of A
($10), no B ($30). -/
def selfC2 : Holdings :=
  { records := [cashRecord 100, equityRecord "A" 1 10 true,
                equityRecord "B" 0 30 true],
    holdings := [mkCashHolding 100, equityHolding "A" 1 10 true,
                 equityHolding "B" 0 30 true] }

/-- Rebalanced side of the C2 counterexample: A was sold (delta -1) and
one share of B bought (delta +1), $5 cash left. -/
def otherC2 : Holdings :=
  { records := [cashRecord 5, equityRecord "A" 0 10 true,
                equityRecord "B" 1 30 true],
    holdings := [mkCashHolding 5, equityHolding "A" 0 10 true,
                 equityHolding "B" 1 30 true] }

/-- The spec's cash-merge example: two cash records, 100 and 50. -/
def cashMergeRecs : List JsonHolding :=
  [cashRecord 100, cashRecord 50]

/-- The portfolio `Holdings.init cashMergeRecs` constructs: a single
cash position of 150. -/
def cashMergeH : Holdings :=
  { records := cashMergeRecs, holdings := [mkCashHolding 150] }

/-- Small allocation vectors for instantiating the `Proportions` laws. -/
def exA : Proportions := [("x", 1/2), ("y", 1/2)]

def exB : Proportions := [("y", 1/4), ("z", 3/4)]

/-! ## Association-list (dict) lemmas -/

theorem lookup_isSome_iff (k : String) :
    ∀ l : List (String × ℚ), (List.lookup k l).isSome = true ↔ k ∈ keysOf l
  | [] => by simp [keysOf]
  | (k', v') :: t => by
    cases hb : k == k' with
    | true =>
      simp [List.lookup, hb, keysOf, eq_of_beq hb]
    | false =>
      simp [List.lookup, hb, keysOf, lookup_isSome_iff k t, ne_of_beq_false hb]

theorem lookup_eq_none_of_not_mem {k : String} {l : List (String × ℚ)}
    (h : k ∉ keysOf l) : List.lookup k l = none := by
  have := (lookup_isSome_iff k l).not.mpr h
  cases hl : List.lookup k l with
  | none => rfl
  | some v => exact absurd (by simp [hl]) this

theorem lookupD_cons (k' : String) (v' : ℚ) (t : List (String × ℚ)) (k : String) :
    lookupD ((k', v') :: t) k = if k = k' then v' else lookupD t k := by
  cases hb : k == k' with
  | true => simp [lookupD, List.lookup, hb, eq_of_beq hb]
  | false => simp [lookupD, List.lookup, hb, ne_of_beq_false hb]

theorem lookupD_nil (k : String) : lookupD [] k = 0 := rfl

theorem lookupD_eq_zero_of_not_mem {k : String} {l : List (String × ℚ)}
    (h : k ∉ keysOf l) : lookupD l k = 0 := by
  simp [lookupD, lookup_eq_none_of_not_mem h]

theorem bump_lookup_ne {k k' : String} (v : ℚ) (h : k' ≠ k) :
    ∀ l : List (String × ℚ), List.lookup k' (bump l k v) = List.lookup k' l
  | [] => rfl
  | (k₀, v₀) :: t => by
    by_cases h₀ : k₀ = k
    · subst h₀
      have hb : (k' == k₀) = false := beq_eq_false_iff_ne.mpr h
      simp [bump, List.lookup, hb]
    · simp [bump, h₀, List.lookup, bump_lookup_ne v h t]

theorem bump_lookup_self {k : String} (v : ℚ) :
    ∀ l : List (String × ℚ), (List.lookup k l).isSome = true →
      List.lookup k (bump l k v) = (List.lookup k l).map (· + v)
  | [], h => by simp at h
  | (k₀, v₀) :: t, h => by
    by_cases h₀ : k₀ = k
    · subst h₀
      simp [bump, List.lookup]
    · have hb : (k == k₀) = false := beq_eq_false_iff_ne.mpr (Ne.symm h₀)
      have ht : (List.lookup k t).isSome = true := by
        simpa [List.lookup, hb] using h
      simp [bump, h₀, List.lookup, hb, bump_lookup_self v t ht]

theorem keysOf_bump (k : String) (v : ℚ) :
    ∀ l : List (String × ℚ), keysOf (bump l k v) = keysOf l
  | [] => rfl
  | (k₀, v₀) :: t => by
    by_cases h₀ : k₀ = k
    · simp [bump, h₀, keysOf]
    · have ih := keysOf_bump k v t
      simp only [keysOf] at ih
      simp [bump, h₀, keysOf, ih]

theorem lookupD_diffStep (acc : Proportions) (kv : String × ℚ) (k : String) :
    lookupD (diffStep acc kv) k
      = lookupD acc k - (if k = kv.1 then kv.2 else 0) := by
  by_cases hs : (List.lookup kv.1 acc).isSome = true
  · by_cases hk : k = kv.1
    · subst hk
      obtain ⟨x, hx⟩ := Option.isSome_iff_exists.mp hs
      simp [diffStep, hs, lookupD, bump_lookup_self (-kv.2) acc hs, hx,
        sub_eq_add_neg]
    · simp [diffStep, hs, lookupD, bump_lookup_ne (-kv.2) hk acc, hk]
  · have hnone : List.lookup kv.1 acc = none := by
      cases h : List.lookup kv.1 acc with
      | none => rfl
      | some v => exact absurd (by simp [h]) hs
    by_cases hk : k = kv.1
    · subst hk
      simp [diffStep, hs, lookupD, List.lookup_append, hnone, List.lookup]
    · have hb : (k == kv.1) = false := beq_eq_false_iff_ne.mpr hk
      simp [diffStep, hs, lookupD, List.lookup_append, hk, List.lookup, hb]

theorem mem_keys_diffStep (acc : Proportions) (kv : String × ℚ) (k : String) :
    k ∈ keysOf (diffStep acc kv) ↔ k ∈ keysOf acc ∨ k = kv.1 := by
  by_cases hs : (List.lookup kv.1 acc).isSome = true
  · have hmem : kv.1 ∈ keysOf acc := (lookup_isSome_iff kv.1 acc).mp hs
    simp only [diffStep, hs, if_true, keysOf_bump]
    constructor
    · exact Or.inl
    · rintro (h | h)
      · exact h
      · exact h ▸ hmem
  · have hfalse : (List.lookup kv.1 acc).isSome = false := by
      cases h : (List.lookup kv.1 acc).isSome
      · rfl
      · exact absurd h hs
    simp [diffStep, hfalse, keysOf]

theorem lookupD_foldl_diffStep (k : String) :
    ∀ (b acc : Proportions), (keysOf b).Nodup →
      lookupD (b.foldl diffStep acc) k = lookupD acc k - lookupD b k
  | [], acc, _ => by simp [lookupD_nil, lookupD, List.lookup]
  | (k₀, v₀) :: rest, acc, hnd => by
    have hnd0 : ((k₀, v₀).1 :: keysOf rest).Nodup := by
      simpa only [keysOf, List.map_cons] using hnd
    have hnd' : (keysOf rest).Nodup := (List.nodup_cons.mp hnd0).2
    have hk₀ : k₀ ∉ keysOf rest := (List.nodup_cons.mp hnd0).1
    have hstep := lookupD_diffStep acc (k₀, v₀) k
    calc lookupD (((k₀, v₀) :: rest).foldl diffStep acc) k
        = lookupD (rest.foldl diffStep (diffStep acc (k₀, v₀))) k := rfl
      _ = lookupD (diffStep acc (k₀, v₀)) k - lookupD rest k :=
          lookupD_foldl_diffStep k rest (diffStep acc (k₀, v₀)) hnd'
      _ = lookupD acc k - lookupD ((k₀, v₀) :: rest) k := by
          rw [hstep, lookupD_cons]
          by_cases hk : k = k₀
          · subst hk
            rw [lookupD_eq_zero_of_not_mem hk₀]
            simp
          · simp [hk]

theorem mem_keys_foldl_diffStep (k : String) :
    ∀ (b acc : Proportions),
      k ∈ keysOf (b.foldl diffStep acc) ↔ k ∈ keysOf acc ∨ k ∈ keysOf b
  | [], acc => by simp [keysOf]
  | (k₀, v₀) :: rest, acc => by
    have h := mem_keys_foldl_diffStep k rest (diffStep acc (k₀, v₀))
    have hstep := mem_keys_diffStep acc (k₀, v₀) k
    constructor
    · intro hm
      rcases h.mp hm with hm' | hm'
      · rcases hstep.mp hm' with h₁ | h₁
        · exact Or.inl h₁
        · exact Or.inr (by simp [keysOf, h₁])
      · exact Or.inr (by simp [keysOf]; right; simpa [keysOf] using hm')
    · intro hm
      apply h.mpr
      rcases hm with hm' | hm'
      · exact Or.inl (hstep.mpr (Or.inl hm'))
      · rcases (by simpa [keysOf] using hm' : k = k₀ ∨ k ∈ keysOf rest) with h₁ | h₁
        · exact Or.inl (hstep.mpr (Or.inr h₁))
        · exact Or.inr h₁

/-- C5: `A.diff(B)` is defined on the union of the key sets, takes value
`A[key] - B[key]` (absent keys contributing 0), and is therefore the
key-by-key negation of `B.diff(A)`. -/
theorem diff_is_pointwise_sub_and_antisymm (A B : Proportions)
    (hA : (keysOf A).Nodup) (hB : (keysOf B).Nodup) :
    (∀ k, k ∈ keysOf (A.diff B) ↔ k ∈ keysOf A ∨ k ∈ keysOf B)
    ∧ (∀ k, lookupD (A.diff B) k = lookupD A k - lookupD B k)
    ∧ (∀ k, lookupD (A.diff B) k = -(lookupD (B.diff A) k)) := by
  refine ⟨fun k => mem_keys_foldl_diffStep k B A,
          fun k => lookupD_foldl_diffStep k B A hB,
          fun k => ?_⟩
  show lookupD (B.foldl diffStep A) k = -(lookupD (A.foldl diffStep B) k)
  rw [lookupD_foldl_diffStep k B A hB, lookupD_foldl_diffStep k A B hA]
  ring

/-- Witness for C5 at concrete vectors. -/
theorem diff_is_pointwise_sub_and_antisymm_witness :
    ((keysOf exA).Nodup ∧ (keysOf exB).Nodup)
    ∧ lookupD (exA.diff exB) "y" = lookupD exA "y" - lookupD exB "y"
    ∧ lookupD (exA.diff exB) "z" = -(lookupD (exB.diff exA) "z") :=
  ⟨⟨by decide, by decide⟩,
   (diff_is_pointwise_sub_and_antisymm exA exB (by decide) (by decide)).2.1 "y",
   (diff_is_pointwise_sub_and_antisymm exA exB (by decide) (by decide)).2.2 "z"⟩

/-! ## Construction lemmas -/

theorem mkHolding_composition (r : JsonHolding) :
    (mkHolding r).composition = r.composition := by
  unfold mkHolding; split <;> rfl

theorem mkHolding_shares (r : JsonHolding) :
    (mkHolding r).shares = r.shares := by
  unfold mkHolding; split <;> rfl

theorem mkHolding_is_cash (r : JsonHolding) :
    (mkHolding r).is_cash_holding = compIsCash r.composition := by
  simp [Holding.is_cash_holding, mkHolding_composition]

theorem init_elim {records : List JsonHolding} {H : Holdings}
    (h : Holdings.init records = some H) :
    (records.all (fun r => sumValues r.composition == 1) = true)
    ∧ H.records = records
    ∧ H.holdings
        = mkCashHolding
            ((((records.map mkHolding).filter
                (fun x => x.is_cash_holding)).map Holding.shares).sum)
          :: ((records.map mkHolding).filter (fun x => !x.is_cash_holding)) := by
  simp only [Holdings.init] at h
  split_ifs at h with hc
  · rw [Bool.and_assoc, Bool.and_eq_true] at hc
    injection h with h'
    exact ⟨hc.1, by rw [← h'], by rw [← h']⟩

/-- C8: a constructed portfolio has exactly one cash position, whose
share count is the sum of the share counts of the cash-typed input
records. -/
theorem init_single_merged_cash {records : List JsonHolding} {H : Holdings}
    (h : Holdings.init records = some H) :
    (H.holdings.filter (fun x => x.is_cash_holding)).length = 1
    ∧ ((H.holdings.filter (fun x => x.is_cash_holding)).map Holding.shares).sum
        = ((records.filter (fun r => compIsCash r.composition)).map
            JsonHolding.shares).sum := by
  obtain ⟨_, _, hH⟩ := init_elim h
  have hnon :
      ((records.map mkHolding).filter (fun x => !x.is_cash_holding)).filter
        (fun x => x.is_cash_holding) = [] := by
    rw [List.filter_filter]
    have : (fun (a : Holding) => a.is_cash_holding && !a.is_cash_holding)
        = fun _ => false := by
      funext a; exact Bool.and_not_self _
    rw [this]
    exact List.filter_false _
  have hcashpos : (mkCashHolding
      ((((records.map mkHolding).filter
          (fun x => x.is_cash_holding)).map Holding.shares).sum)).is_cash_holding
        = true := by
    rfl
  have hfil : H.holdings.filter (fun x => x.is_cash_holding)
      = [mkCashHolding
          ((((records.map mkHolding).filter
              (fun x => x.is_cash_holding)).map Holding.shares).sum)] := by
    rw [hH, List.filter_cons, if_pos hcashpos, hnon]
  refine ⟨by rw [hfil]; rfl, ?_⟩
  rw [hfil]
  have hswap : (records.map mkHolding).filter (fun x => x.is_cash_holding)
      = (records.filter (fun r => compIsCash r.composition)).map mkHolding := by
    have hfun : ((fun x : Holding => x.is_cash_holding) ∘ mkHolding)
        = fun r => compIsCash r.composition := by
      funext r
      simp [Function.comp, mkHolding_is_cash]
    rw [List.filter_map, hfun]
  have hshares : ((records.filter (fun r => compIsCash r.composition)).map
        mkHolding).map Holding.shares
      = (records.filter (fun r => compIsCash r.composition)).map
          JsonHolding.shares := by
    rw [List.map_map]
    congr 1
    funext r
    simp [Function.comp, mkHolding_shares]
  simp [mkCashHolding, hswap, hshares]

theorem cashMerge_init : Holdings.init cashMergeRecs = some cashMergeH := by
  norm_num [Holdings.init, cashMergeRecs, cashRecord, mkHolding, compIsCash,
    Holding.is_cash_holding, mkCashHolding, sumValues, nodupKeys, cashMergeH,
    List.filter_cons, List.all_cons]

/-- Witness for C8 at the spec's merge example (100 + 50 = 150). -/
theorem init_single_merged_cash_witness :
    Holdings.init cashMergeRecs = some cashMergeH
    ∧ (cashMergeH.holdings.filter (fun x => x.is_cash_holding)).length = 1
    ∧ ((cashMergeH.holdings.filter (fun x => x.is_cash_holding)).map
          Holding.shares).sum
        = ((cashMergeRecs.filter (fun r => compIsCash r.composition)).map
            JsonHolding.shares).sum :=
  ⟨cashMerge_init, (init_single_merged_cash cashMerge_init).1,
    (init_single_merged_cash cashMerge_init).2⟩

/-! ## Value-conservation lemmas for the allocation dict -/

theorem sumValues_bump {k : String} (v : ℚ) :
    ∀ l : List (String × ℚ), (List.lookup k l).isSome = true →
      sumValues (bump l k v) = sumValues l + v
  | [], h => by simp at h
  | (k₀, v₀) :: t, h => by
    by_cases h₀ : k₀ = k
    · subst h₀
      simp [bump, sumValues]
      ring
    · have hb : (k == k₀) = false := beq_eq_false_iff_ne.mpr (Ne.symm h₀)
      have ht : (List.lookup k t).isSome = true := by
        simpa [List.lookup, hb] using h
      have ih := sumValues_bump v t ht
      simp only [sumValues] at ih ⊢
      simp [bump, h₀, ih]
      ring

theorem sumValues_addInto (l : List (String × ℚ)) (kv : String × ℚ) :
    sumValues (addInto l kv) = sumValues l + kv.2 := by
  by_cases hs : (List.lookup kv.1 l).isSome = true
  · simp [addInto, hs, sumValues_bump kv.2 l hs]
  · simp [addInto, hs, sumValues]

theorem sumValues_foldl_addInto :
    ∀ (l : List (String × ℚ)) (acc : List (String × ℚ)),
      sumValues (l.foldl addInto acc) = sumValues acc + sumValues l
  | [], acc => by simp [sumValues]
  | kv :: t, acc => by
    rw [List.foldl_cons, sumValues_foldl_addInto t (addInto acc kv),
      sumValues_addInto]
    simp [sumValues]
    ring

theorem sumValues_values_by_type (h : Holding) :
    sumValues h.get_current_values_by_type
      = sumValues h.composition * h.current_value := by
  unfold Holding.get_current_values_by_type
  induction h.composition with
  | nil => simp [sumValues]
  | cons kv t ih =>
    simp [sumValues] at *
    rw [ih]
    ring

theorem sumValues_valueByType :
    ∀ (hs : List Holding), (∀ h ∈ hs, sumValues h.composition = 1) →
      ∀ acc : List (String × ℚ),
        sumValues (hs.foldl
          (fun acc h => h.get_current_values_by_type.foldl addInto acc) acc)
          = sumValues acc + totalValue hs
  | [], _, acc => by simp [totalValue, sumValues]
  | h :: t, hcomp, acc => by
    have h1 : sumValues h.composition = 1 := hcomp h (by simp)
    have ht : ∀ x ∈ t, sumValues x.composition = 1 :=
      fun x hx => hcomp x (by simp [hx])
    rw [List.foldl_cons, sumValues_valueByType t ht, sumValues_foldl_addInto,
      sumValues_values_by_type, h1, totalValue]
    simp [totalValue]
    ring

theorem sumValues_map_div (l : List (String × ℚ)) (c : ℚ) :
    sumValues (l.map (fun kv => (kv.1, kv.2 / c))) = sumValues l / c := by
  induction l with
  | nil => simp [sumValues]
  | cons kv t ih =>
    simp [sumValues] at *
    rw [ih, add_div]

theorem init_compositions_sum_one {records : List JsonHolding} {H : Holdings}
    (h : Holdings.init records = some H) :
    ∀ x ∈ H.holdings, sumValues x.composition = 1 := by
  obtain ⟨hall, _, hH⟩ := init_elim h
  intro x hx
  rw [hH] at hx
  rcases List.mem_cons.mp hx with hx' | hx'
  · subst hx'
    simp [mkCashHolding, sumValues]
  · have hx'' := (List.mem_filter.mp hx').1
    obtain ⟨r, hr, hrx⟩ := List.mem_map.mp hx''
    have := (List.all_eq_true.mp hall) r hr
    have hs1 : sumValues r.composition = 1 := by
      exact eq_of_beq this
    rw [← hrx, mkHolding_composition]
    exact hs1

/-- C7: allocations of a constructed portfolio with nonzero total value
sum to exactly 1 in exact arithmetic. -/
theorem allocations_sum_one {records : List JsonHolding} {H : Holdings}
    (h : Holdings.init records = some H) (hv : H.current_value ≠ 0) :
    sumValues H.get_current_allocations = 1 := by
  have hcomp := init_compositions_sum_one h
  show sumValues (allocationsL H.holdings) = 1
  unfold allocationsL
  rw [sumValues_map_div]
  unfold valueByType
  rw [sumValues_valueByType H.holdings hcomp []]
  simp [sumValues]
  exact div_self hv

theorem exC1_init : Holdings.init exC1recs = some exC1H := by
  simp [Holdings.init, exC1recs, cashRecord, equityRecord, mkHolding,
    compIsCash, Holding.is_cash_holding, mkCashHolding, sumValues, nodupKeys,
    exC1H, equityHolding, List.filter_cons, List.all_cons]

/-- Witness for C7 at the three-holding example portfolio. -/
theorem allocations_sum_one_witness :
    (Holdings.init exC1recs = some exC1H ∧ exC1H.current_value ≠ 0)
    ∧ sumValues exC1H.get_current_allocations = 1 :=
  ⟨⟨exC1_init, by norm_num [Holdings.current_value, totalValue, exC1H,
      mkCashHolding, equityHolding, Holding.current_value]⟩,
   allocations_sum_one exC1_init (by norm_num [Holdings.current_value,
      totalValue, exC1H, mkCashHolding, equityHolding, Holding.current_value])⟩

/-! ## Share-mutation lemmas -/

theorem lt_of_getElem?_some {α : Type} {l : List α} {i : Nat} {a : α}
    (h : l[i]? = some a) : i < l.length := by
  by_contra hc
  rw [List.getElem?_eq_none (by omega)] at h
  cases h

theorem addShares_get?_ne :
    ∀ (hs : List Holding) (i : Nat) (d : ℚ) (j : Nat), j ≠ i →
      (addShares hs i d)[j]? = hs[j]?
  | [], _, _, _, _ => rfl
  | _ :: _, 0, _, 0, hne => absurd rfl hne
  | _ :: _, 0, _, _ + 1, _ => by
      simp [addShares, List.getElem?_cons_succ]
  | _ :: _, _ + 1, _, 0, _ => by
      simp [addShares, List.getElem?_cons_zero]
  | _ :: t, i + 1, d, j + 1, hne => by
      simp only [addShares, List.getElem?_cons_succ]
      exact addShares_get?_ne t i d j (by omega)

theorem addShares_get?_self :
    ∀ (hs : List Holding) (i : Nat) (d : ℚ) (h : Holding),
      hs[i]? = some h →
      (addShares hs i d)[i]? = some { h with shares := h.shares + d }
  | [], i, _, _, hh => by simp at hh
  | h₀ :: t, 0, d, h, hh => by
      have : h₀ = h := by simpa using hh
      subst this
      simp [addShares, List.getElem?_cons_zero]
  | h₀ :: t, i + 1, d, h, hh => by
      have hh' : t[i]? = some h := by
        simpa [List.getElem?_cons_succ] using hh
      simpa [addShares, List.getElem?_cons_succ]
        using addShares_get?_self t i d h hh'

theorem addShares_length :
    ∀ (hs : List Holding) (i : Nat) (d : ℚ),
      (addShares hs i d).length = hs.length
  | [], _, _ => rfl
  | _ :: _, 0, _ => rfl
  | _ :: t, i + 1, d => by simp [addShares, addShares_length t i d]

theorem priceAt_addShares (hs : List Holding) (i : Nat) (d : ℚ) (j : Nat) :
    priceAt (addShares hs i d) j = priceAt hs j := by
  by_cases hj : j = i
  · subst hj
    cases hh : hs[j]? with
    | none =>
      have hlen : hs.length ≤ j := List.getElem?_eq_none_iff.mp hh
      have : (addShares hs j d)[j]? = none :=
        List.getElem?_eq_none_iff.mpr (by rw [addShares_length]; exact hlen)
      simp [priceAt, hh, this]
    | some h =>
      rw [priceAt, addShares_get?_self hs j d h hh]
      simp [priceAt, hh]
  · simp [priceAt, addShares_get?_ne hs i d j hj]

theorem totalValue_addShares :
    ∀ (hs : List Holding) (i : Nat) (d : ℚ), i < hs.length →
      totalValue (addShares hs i d) = totalValue hs + d * priceAt hs i
  | [], _, _, h => absurd h (by simp)
  | h₀ :: t, 0, d, _ => by
      simp [addShares, totalValue, Holding.current_value, priceAt]
      ring
  | h₀ :: t, i + 1, d, hlt => by
      have ih := totalValue_addShares t i d (by simpa using hlt)
      simp only [totalValue] at ih ⊢
      simp [addShares, ih, priceAt]
      ring

theorem mem_typesToBuyIdx {hs : List Holding} {t : String} {i : Nat} :
    i ∈ typesToBuyIdx hs t ↔
      ∃ h, hs[i]? = some h ∧ h.buy_additional = true
        ∧ (List.lookup t h.composition).isSome = true := by
  unfold typesToBuyIdx
  rw [List.mem_filter, List.mem_range]
  constructor
  · rintro ⟨hlt, hp⟩
    cases hh : hs[i]? with
    | none => rw [hh] at hp; simp at hp
    | some h =>
      rw [hh] at hp
      simp only [Bool.and_eq_true] at hp
      exact ⟨h, rfl, hp.1, hp.2⟩
  · rintro ⟨h, hh, hba, hlk⟩
    have hlt : i < hs.length := by
      by_contra hc
      rw [List.getElem?_eq_none_iff.mpr (by omega)] at hh
      cases hh
    refine ⟨hlt, ?_⟩
    rw [hh]
    simp [hba, hlk]

theorem mem_affordableIdx {hs : List Holding} {t : String} {n : ℚ} {i : Nat} :
    i ∈ affordableIdx hs t n ↔
      i ∈ typesToBuyIdx hs t ∧ priceAt hs i * n < cashOf hs := by
  unfold affordableIdx
  rw [List.mem_filter]
  simp

theorem WF_elim {H : Holdings} (hWF : WF H) :
    ∃ h₀, H.holdings[0]? = some h₀
      ∧ h₀.current_price = 1 ∧ h₀.buy_additional = false := by
  unfold WF at hWF
  cases hh : H.holdings[0]? with
  | none => rw [hh] at hWF; cases hWF
  | some h₀ =>
    rw [hh] at hWF
    simp only [Option.map_some', Option.some.injEq, Prod.mk.injEq] at hWF
    exact ⟨h₀, rfl, hWF.1, hWF.2⟩

theorem typesToBuyIdx_ne_zero {H : Holdings} {t : String} {i : Nat}
    (hWF : WF H) (hi : i ∈ typesToBuyIdx H.holdings t) : i ≠ 0 := by
  intro e
  subst e
  obtain ⟨h, hh, hba, _⟩ := mem_typesToBuyIdx.mp hi
  obtain ⟨h₀, hh₀, _, hba₀⟩ := WF_elim hWF
  rw [hh₀] at hh
  injection hh with hh
  rw [hh] at hba₀
  rw [hba₀] at hba
  cases hba

theorem buy_type_success {H : Holdings} {t : String} {target n : ℚ}
    {H' : Holdings} (h : H.buy_type t target n = some (true, H')) :
    ∃ i rest, affordableIdx H.holdings t n = i :: rest
      ∧ H' = applyBuy H i n := by
  simp only [Holdings.buy_type] at h
  split_ifs at h with hk hemp
  · simp at h
  · cases haff : affordableIdx H.holdings t n with
    | nil => rw [haff] at hemp; simp at hemp
    | cons i rest =>
      simp only [diffsAfterPurchase, haff, List.map_cons] at h
      simp only [Option.some.injEq, Prod.mk.injEq, true_and] at h
      exact ⟨i, rest, rfl, h.symm⟩

theorem cashOf_applyBuy {H : Holdings} {i : Nat} (n : ℚ)
    (hWF : WF H) (hi : i ≠ 0) :
    (applyBuy H i n).cash = H.cash - priceAt H.holdings i * n := by
  obtain ⟨h₀, hh₀, _, _⟩ := WF_elim hWF
  have h1 : (addShares H.holdings i n)[0]? = some h₀ := by
    rw [addShares_get?_ne H.holdings i n 0 (by omega)]
    exact hh₀
  show cashOf (addShares (addShares H.holdings i n) 0
      (-(priceAt H.holdings i * n))) = _
  rw [cashOf, addShares_get?_self _ 0 _ h₀ h1]
  show h₀.shares + -(priceAt H.holdings i * n) = H.cash - priceAt H.holdings i * n
  rw [Holdings.cash, cashOf, hh₀]
  show h₀.shares + -(priceAt H.holdings i * n) = h₀.shares - priceAt H.holdings i * n
  ring

theorem totalValue_applyBuy {H : Holdings} {i : Nat} (n : ℚ)
    (hWF : WF H) (hi : i ≠ 0) (hlt : i < H.holdings.length) :
    (applyBuy H i n).current_value = H.current_value := by
  obtain ⟨h₀, hh₀, hp₀, _⟩ := WF_elim hWF
  have hlen0 : 0 < H.holdings.length := by
    rcases List.getElem?_eq_some.mp hh₀ with ⟨hl, _⟩
    exact hl
  show totalValue (addShares (addShares H.holdings i n) 0
      (-(priceAt H.holdings i * n))) = totalValue H.holdings
  rw [totalValue_addShares _ 0 _ (by rw [addShares_length]; exact hlen0),
    totalValue_addShares _ i _ hlt, priceAt_addShares]
  have hpz : priceAt H.holdings 0 = 1 := by simp [priceAt, hh₀, hp₀]
  rw [hpz]
  ring

theorem sell_type_success {H : Holdings} {t : String} {k : Nat} {n : ℚ}
    {H' : Holdings} (h : H.sell_type t k n = some H') :
    ∃ i, (typesToBuyIdx H.holdings t)[k]? = some i
      ∧ H' = { H with holdings := addShares (addShares H.holdings i (-n)) 0
                        (priceAt H.holdings i * n) } := by
  simp only [Holdings.sell_type] at h
  split_ifs at h
  cases hg : (typesToBuyIdx H.holdings t)[k]? with
  | none => rw [hg] at h; cases h
  | some i =>
    rw [hg] at h
    simp only [Option.some.injEq] at h
    exact ⟨i, rfl, h.symm⟩

/-- C6: whenever `buy_type` reports success, every considered candidate
was strictly affordable, and the resulting cash is non-negative. -/
theorem buy_type_affordable_and_cash_nonneg {H : Holdings} {t : String}
    {target n : ℚ} {H' : Holdings}
    (hWF : WF H) (hcash : 0 ≤ H.cash)
    (hpos : ∀ h ∈ H.holdings, 0 < h.current_price)
    (hbuy : H.buy_type t target n = some (true, H')) :
    (∀ i ∈ affordableIdx H.holdings t n, priceAt H.holdings i * n < H.cash)
    ∧ 0 ≤ H'.cash := by
  constructor
  · exact fun i hi => (mem_affordableIdx.mp hi).2
  · obtain ⟨i, rest, haff, heq⟩ := buy_type_success hbuy
    have hi : i ∈ affordableIdx H.holdings t n := by rw [haff]; simp
    obtain ⟨hmem, hlt⟩ := mem_affordableIdx.mp hi
    have hne : i ≠ 0 := typesToBuyIdx_ne_zero hWF hmem
    rw [heq, cashOf_applyBuy n hWF hne]
    have : priceAt H.holdings i * n < H.cash := hlt
    linarith

/-- C10: a successful `buy_type` and any `sell_type` leave the
portfolio's total `current_value` unchanged in exact arithmetic; the
cash position absorbs exactly `price * num_shares` in the opposite
direction of the traded holding. -/
theorem trades_preserve_total_value {H : Holdings} (hWF : WF H) :
    (∀ t target n H', H.buy_type t target n = some (true, H') →
        H'.current_value = H.current_value
        ∧ ∃ i ∈ affordableIdx H.holdings t n,
            H'.cash = H.cash - priceAt H.holdings i * n)
    ∧ (∀ t k n H', H.sell_type t k n = some H' →
        H'.current_value = H.current_value
        ∧ ∃ i ∈ typesToBuyIdx H.holdings t,
            H'.cash = H.cash + priceAt H.holdings i * n) := by
  constructor
  · intro t target n H' hbuy
    obtain ⟨i, rest, haff, heq⟩ := buy_type_success hbuy
    have hi : i ∈ affordableIdx H.holdings t n := by rw [haff]; simp
    obtain ⟨hmem, _⟩ := mem_affordableIdx.mp hi
    have hne : i ≠ 0 := typesToBuyIdx_ne_zero hWF hmem
    obtain ⟨h, hh, _, _⟩ := mem_typesToBuyIdx.mp hmem
    have hlt : i < H.holdings.length := lt_of_getElem?_some hh
    exact ⟨heq ▸ totalValue_applyBuy n hWF hne hlt,
      ⟨i, hi, heq ▸ cashOf_applyBuy n hWF hne⟩⟩
  · intro t k n H' hsell
    obtain ⟨i, hg, heq⟩ := sell_type_success hsell
    have hmem : i ∈ typesToBuyIdx H.holdings t := List.getElem?_mem hg
    have hne : i ≠ 0 := typesToBuyIdx_ne_zero hWF hmem
    obtain ⟨h, hh, _, _⟩ := mem_typesToBuyIdx.mp hmem
    have hlt : i < H.holdings.length := lt_of_getElem?_some hh
    obtain ⟨h₀, hh₀, hp₀, _⟩ := WF_elim hWF
    have hlen0 : 0 < H.holdings.length := lt_of_getElem?_some hh₀
    constructor
    · rw [heq]
      show totalValue (addShares (addShares H.holdings i (-n)) 0
          (priceAt H.holdings i * n)) = totalValue H.holdings
      rw [totalValue_addShares _ 0 _ (by rw [addShares_length]; exact hlen0),
        totalValue_addShares _ i _ hlt, priceAt_addShares]
      have hpz : priceAt H.holdings 0 = 1 := by simp [priceAt, hh₀, hp₀]
      rw [hpz]
      ring
    · refine ⟨i, hmem, ?_⟩
      rw [heq]
      have h1 : (addShares H.holdings i (-n))[0]? = some h₀ := by
        rw [addShares_get?_ne H.holdings i (-n) 0 (by omega)]
        exact hh₀
      show cashOf (addShares (addShares H.holdings i (-n)) 0
          (priceAt H.holdings i * n)) = _
      rw [cashOf, addShares_get?_self _ 0 _ h₀ h1]
      show h₀.shares + priceAt H.holdings i * n = H.cash + priceAt H.holdings i * n
      rw [Holdings.cash, cashOf, hh₀]
      rfl

/-! ## Concrete evaluations on the example portfolio -/

theorem exC1_WF : WF exC1H := by
  simp [WF, exC1H, mkCashHolding, equityHolding]

theorem exC1_cash_nonneg : 0 ≤ exC1H.cash := by
  norm_num [Holdings.cash, cashOf, exC1H, mkCashHolding]

theorem exC1_prices_pos : ∀ h ∈ exC1H.holdings, 0 < h.current_price := by
  simp [exC1H, mkCashHolding, equityHolding]

theorem exC1_buy_eval :
    exC1H.buy_type "equity" (1/2) 1 = some (true, exC1bought) := by
  norm_num [Holdings.buy_type, hasTypeKey, typesToBuyIdx, affordableIdx,
    priceAt, cashOf, Holdings.cash, diffsAfterPurchase, allocationsL,
    valueByType, totalValue, addInto, bump, lookupD, applyBuy, addShares,
    Holding.current_value, Holding.get_current_values_by_type,
    exC1H, exC1bought, mkCashHolding, equityHolding, List.range_succ,
    List.filter_cons, List.lookup]
  intro hc
  simp at hc

theorem exC1_sell_eval :
    exC1H.sell_type "equity" 0 1 = some exC1sold := by
  norm_num [Holdings.sell_type, hasTypeKey, typesToBuyIdx,
    priceAt, cashOf, Holdings.cash, addShares,
    Holding.current_value, exC1H, exC1sold, mkCashHolding, equityHolding,
    List.range_succ, List.filter_cons, List.lookup]
  intro hc
  simp at hc

/-- Witness for C6: a successful one-share purchase out of the example
portfolio leaves cash at 900 ≥ 0. -/
theorem buy_type_affordable_and_cash_nonneg_witness :
    (WF exC1H ∧ 0 ≤ exC1H.cash
      ∧ exC1H.buy_type "equity" (1/2) 1 = some (true, exC1bought))
    ∧ 0 ≤ exC1bought.cash :=
  ⟨⟨exC1_WF, exC1_cash_nonneg, exC1_buy_eval⟩,
   (buy_type_affordable_and_cash_nonneg exC1_WF exC1_cash_nonneg
      exC1_prices_pos exC1_buy_eval).2⟩

/-- Witness for C10: both the committed purchase and a sale on the
example portfolio preserve its total value of 1000. -/
theorem trades_preserve_total_value_witness :
    WF exC1H
    ∧ exC1bought.current_value = exC1H.current_value
    ∧ exC1sold.current_value = exC1H.current_value :=
  ⟨exC1_WF,
   ((trades_preserve_total_value exC1_WF).1 "equity" (1/2) 1 exC1bought
      exC1_buy_eval).1,
   ((trades_preserve_total_value exC1_WF).2 "equity" 0 1 exC1sold
      exC1_sell_eval).1⟩

theorem lookup_nil (k : String) :
    List.lookup k ([] : List (String × ℚ)) = none := rfl

theorem lookup_cons (k k' : String) (v : ℚ) (t : List (String × ℚ)) :
    List.lookup k ((k', v) :: t)
      = if k = k' then some v else List.lookup k t := by
  cases hb : k == k' with
  | true => simp [List.lookup, hb, eq_of_beq hb]
  | false => simp [List.lookup, hb, ne_of_beq_false hb]

theorem exC1_diffs_eval :
    diffsAfterPurchase exC1H.holdings "equity" (1/2) 1
      = [(9/22, 1), (1/6, 2)] := by
  norm_num [diffsAfterPurchase, affordableIdx, typesToBuyIdx, priceAt, cashOf,
    allocationsL, valueByType, totalValue, addInto, bump, lookupD, addShares,
    Holding.current_value, Holding.get_current_values_by_type,
    exC1H, mkCashHolding, equityHolding, List.range_succ, List.filter_cons,
    lookup_cons, lookup_nil]
  simp [List.lookup]
  norm_num

/-- C1 (evaluation at the failing input): on `exC1H` the simulated
post-purchase distances to the 1/2 equity target are 9/22 for candidate
index 1 (stock A) and 1/6 for index 2 (stock B); B is the unique
minimizer, yet `buy_type` commits the purchase to A (first in
eligibility order) — the code reads `diffs_after_purchase[0]` without
ever comparing the simulated distances, so the claimed minimum-distance
selection fails. -/
theorem buy_type_first_not_minimizer :
    Holdings.init exC1recs = some exC1H
    ∧ exC1H.buy_type "equity" (1/2) 1 = some (true, exC1bought)
    ∧ diffsAfterPurchase exC1H.holdings "equity" (1/2) 1
        = [(9/22, 1), (1/6, 2)]
    ∧ (1/6 : ℚ) < 9/22
    ∧ (exC1bought.holdings[1]?).map Holding.shares = some 1
    ∧ (exC1bought.holdings[2]?).map Holding.shares = some 0 :=
  ⟨exC1_init, exC1_buy_eval, exC1_diffs_eval, by norm_num,
   by simp [exC1bought, equityHolding, mkCashHolding],
   by simp [exC1bought, equityHolding, mkCashHolding]⟩

theorem exC3_init : Holdings.init exC3recs = some exC3H := by
  simp [Holdings.init, exC3recs, cashRecord, equityRecord, mkHolding,
    compIsCash, Holding.is_cash_holding, mkCashHolding, sumValues, nodupKeys,
    exC3H, equityHolding, List.filter_cons, List.all_cons]

/-- C3 (counterexample): on the constructed portfolio `exC3H`, whose only
equity holding is not purchase-eligible, the eligibility index has no
entry for the equity type, and `buy_type` raises a `KeyError`
(modelled `none`) instead of returning the failure value `False`. -/
theorem buy_type_no_eligible_raises :
    Holdings.init exC3recs = some exC3H
    ∧ exC3H.buy_type "equity" (1/2) 1 = none :=
  ⟨exC3_init,
   by norm_num [Holdings.buy_type, hasTypeKey, exC3H, mkCashHolding,
     equityHolding]⟩

/-- C3 (amended): an affordability failure — the eligibility index has
an entry for the type but no candidate's lot cost is below cash — makes
`buy_type` return the boolean failure value `False` (with the portfolio
unchanged) as ordinary control flow, and a buy-loop pass with no
successful purchase terminates the loop; but a type with no entry at all
in the eligibility index makes `buy_type` raise a `KeyError`. -/
theorem buy_type_failure_is_control_flow (H : Holdings) (t : String)
    (target n : ℚ) :
    (hasTypeKey H.holdings t = true → affordableIdx H.holdings t n = [] →
        H.buy_type t target n = some (false, H))
    ∧ (hasTypeKey H.holdings t = false → H.buy_type t target n = none)
    ∧ (∀ targets fuel, buyPass H targets = some none →
        buyLoop (fuel + 1) H targets = LoopResult.done H) := by
  refine ⟨fun hk haff => ?_, fun hk => ?_, fun targets fuel hpass => ?_⟩
  · simp [Holdings.buy_type, hk, haff]
  · simp [Holdings.buy_type, hk]
  · simp [buyLoop, hpass]

theorem exPoor_hasKey : hasTypeKey exPoorH.holdings "equity" = true := by
  simp [hasTypeKey, exPoorH, mkCashHolding, equityHolding, lookup_cons]

theorem exPoor_afford_empty : affordableIdx exPoorH.holdings "equity" 1 = [] := by
  norm_num [affordableIdx, typesToBuyIdx, priceAt, cashOf, exPoorH,
    mkCashHolding, equityHolding, List.range_succ, List.filter_cons,
    lookup_cons, lookup_nil]

theorem exC3_hasKey_false : hasTypeKey exC3H.holdings "equity" = false := by
  simp [hasTypeKey, exC3H, mkCashHolding, equityHolding, lookup_cons]

theorem exPoor_pass_eval : buyPass exPoorH [("equity", 1)] = some none := by
  norm_num [buyPass, tryTypes, sortDiffs, insertDesc, pairLt,
    Proportions.diff, diffStep, Proportions.get_type, bump,
    Holdings.get_current_allocations, allocationsL, valueByType, totalValue,
    addInto, lookupD, Holdings.buy_type, hasTypeKey, typesToBuyIdx,
    affordableIdx, priceAt, cashOf, Holding.current_value,
    Holding.get_current_values_by_type, exPoorH, mkCashHolding,
    equityHolding, List.range_succ, List.filter_cons, lookup_cons, lookup_nil]
  simp [List.lookup]
  norm_num [tryTypes, lookup_cons, lookup_nil, sortDiffs, insertDesc, pairLt,
    Holdings.buy_type, hasTypeKey, typesToBuyIdx, affordableIdx, priceAt,
    cashOf, Proportions.get_type, exPoorH, mkCashHolding, equityHolding,
    List.range_succ, List.filter_cons, diffStep, bump]
  intro h1 h2
  simp

/-- Witness for the amended C3 on two concrete portfolios. -/
theorem buy_type_failure_is_control_flow_witness :
    (hasTypeKey exPoorH.holdings "equity" = true
      ∧ affordableIdx exPoorH.holdings "equity" 1 = []
      ∧ exPoorH.buy_type "equity" 1 1 = some (false, exPoorH))
    ∧ (hasTypeKey exC3H.holdings "equity" = false
      ∧ exC3H.buy_type "equity" 1 1 = none)
    ∧ (buyPass exPoorH [("equity", 1)] = some none
      ∧ buyLoop 1 exPoorH [("equity", 1)] = LoopResult.done exPoorH) :=
  ⟨⟨exPoor_hasKey, exPoor_afford_empty,
    (buy_type_failure_is_control_flow exPoorH "equity" 1 1).1
      exPoor_hasKey exPoor_afford_empty⟩,
   ⟨exC3_hasKey_false,
    (buy_type_failure_is_control_flow exC3H "equity" 1 1).2.1
      exC3_hasKey_false⟩,
   ⟨exPoor_pass_eval,
    (buy_type_failure_is_control_flow exPoorH "equity" 1 1).2.2
      [("equity", 1)] 0 exPoor_pass_eval⟩⟩

/-! ## Limit-price lemmas -/

theorem find?_symbol_cons (s : String) (h : Holding) (t : List Holding) :
    List.find? (fun x => x.symbol == s) (h :: t)
      = if h.symbol = s then some h
        else List.find? (fun x => x.symbol == s) t := by
  cases hb : (h.symbol == s) with
  | true => simp [List.find?, hb, eq_of_beq hb]
  | false => simp [List.find?, hb, ne_of_beq_false hb]

theorem limitEntries_mem {H : Holdings} {T c : ℚ} :
    ∀ {l L : List (ℚ × String)}, limitEntries H T c l = some L →
      ∀ {d : ℚ} {s : String}, (d, s) ∈ l → s ≠ "cash" → s ≠ "other" →
        0 < d →
      ∀ {p : ℚ}, (symbolLookup H s).map (fun x => x.current_price) = some p →
        (p / T * c / d + p, s) ∈ L
  | [], L, hL, d, s, hmem, _, _, _, _, _ => by simp at hmem
  | (d₀, s₀) :: tl, L, hL, d, s, hmem, hs, ho, hd, p, hp => by
    rw [limitEntries] at hL
    by_cases hq : s₀ ≠ "cash" ∧ s₀ ≠ "other" ∧ d₀ > 0
    · rw [if_pos hq] at hL
      cases hsl : symbolLookup H s₀ with
      | none => rw [hsl] at hL; simp at hL
      | some h₀ =>
        cases hrest : limitEntries H T c tl with
        | none => rw [hsl, hrest] at hL; simp at hL
        | some L₀ =>
          rw [hsl, hrest] at hL
          simp only [Option.some.injEq] at hL
          rcases List.mem_cons.mp hmem with hhd | htl
          · injection hhd with hd₀ hs₀
            subst hd₀
            subst hs₀
            have hph : p = h₀.current_price := by
              rw [hsl] at hp
              simpa using hp.symm
            rw [← hL, hph]
            exact List.mem_cons_self _ _
          · have := limitEntries_mem hrest htl hs ho hd hp
            rw [← hL]
            exact List.mem_cons_of_mem _ this
    · rw [if_neg hq] at hL
      rcases List.mem_cons.mp hmem with hhd | htl
      · injection hhd with hd₀ hs₀
        subst hd₀
        subst hs₀
        exact absurd ⟨hs, ho, hd⟩ hq
      · exact limitEntries_mem hL htl hs ho hd hp

/-- C2 (amended): for every symbol with strictly positive share delta
(non-cash, non-other), `limit_prices` emits the entry
`price / T * other.cash / delta + price`, where `T = sumDiffPrices` is
the sum of current prices over the symbols with NONZERO delta (the code
sums over nonzero deltas, not only the positive ones as the claim and
spec state). -/
theorem limit_prices_formula {H other : Holdings} {T : ℚ}
    {L : List (ℚ × String)}
    (hT : sumDiffPrices H (H.get_shares_diffs other) = some T)
    (hL : H.limit_prices other = some L) :
    ∀ d s, (d, s) ∈ H.get_shares_diffs other → s ≠ "cash" → s ≠ "other" →
      0 < d →
      ∀ p, (symbolLookup H s).map (fun x => x.current_price) = some p →
        (p / T * other.cash / d + p, s) ∈ L := by
  intro d s hmem hs ho hd p hp
  have hE : limitEntries H T other.cash (H.get_shares_diffs other) = some L := by
    simp only [Holdings.limit_prices, hT] at hL
    exact hL
  exact limitEntries_mem hE hmem hs ho hd hp

theorem c2_sum_eval :
    sumDiffPrices selfC2 (selfC2.get_shares_diffs otherC2) = some 40 := by
  norm_num [Holdings.get_shares_diffs, symbolLookup, selfC2, otherC2,
    mkCashHolding, equityHolding, find?_symbol_cons, List.find?_nil,
    sumDiffPrices]
  simp
  norm_num

theorem c2_limit_eval :
    selfC2.limit_prices otherC2 = some [(135/4, "B")] := by
  norm_num [Holdings.limit_prices, Holdings.get_shares_diffs, symbolLookup,
    selfC2, otherC2, mkCashHolding, equityHolding, find?_symbol_cons,
    List.find?_nil, sumDiffPrices, limitEntries, Holdings.cash, cashOf]
  simp
  norm_num

theorem c2_sumpos_eval :
    sumPosDiffPrices selfC2 (selfC2.get_shares_diffs otherC2) = some 30 := by
  norm_num [Holdings.get_shares_diffs, symbolLookup, selfC2, otherC2,
    mkCashHolding, equityHolding, find?_symbol_cons, List.find?_nil,
    sumPosDiffPrices]
  simp

theorem c2_lookB_eval :
    (symbolLookup selfC2 "B").map (fun x => x.current_price) = some 30 := by
  norm_num [symbolLookup, selfC2, mkCashHolding, equityHolding,
    find?_symbol_cons, List.find?_nil]
  simp

theorem c2_memB :
    ((1 : ℚ), "B") ∈ selfC2.get_shares_diffs otherC2 := by
  norm_num [Holdings.get_shares_diffs, symbolLookup, selfC2, otherC2,
    mkCashHolding, equityHolding, find?_symbol_cons, List.find?_nil]
  simp

/-- C2 (counterexample): with a sold symbol among the deltas (A has
delta -1), the code's cost-weight denominator is 10 + 30 = 40 (prices
over NONZERO deltas) and the emitted limit price for B is 135/4; the
claim's denominator (prices over strictly positive deltas) is 30, which
would give 30/30 x 5/1 + 30 = 35 ≠ 135/4. -/
theorem limit_prices_pos_denominator_counterexample :
    selfC2.limit_prices otherC2 = some [(135/4, "B")]
    ∧ sumPosDiffPrices selfC2 (selfC2.get_shares_diffs otherC2) = some 30
    ∧ ((30 : ℚ) / 30 * otherC2.cash / 1 + 30 = 35)
    ∧ (135/4 : ℚ) ≠ 35 :=
  ⟨c2_limit_eval, c2_sumpos_eval,
   by norm_num [Holdings.cash, cashOf, otherC2, mkCashHolding],
   by norm_num⟩

/-- Witness for the amended C2 at the concrete pair of portfolios. -/
theorem limit_prices_formula_witness :
    (sumDiffPrices selfC2 (selfC2.get_shares_diffs otherC2) = some 40
      ∧ selfC2.limit_prices otherC2 = some [(135/4, "B")]
      ∧ ((1 : ℚ), "B") ∈ selfC2.get_shares_diffs otherC2
      ∧ (symbolLookup selfC2 "B").map (fun x => x.current_price) = some 30)
    ∧ ((30 : ℚ) / 40 * otherC2.cash / 1 + 30, "B") ∈ [((135/4 : ℚ), "B")] :=
  ⟨⟨c2_sum_eval, c2_limit_eval, c2_memB, c2_lookB_eval⟩,
   limit_prices_formula c2_sum_eval c2_limit_eval 1 "B" c2_memB
     (by simp) (by simp) (by norm_num) 30 c2_lookB_eval⟩

/-! ## The rebalance driver and the original portfolio -/

/-- C9: `spend_cash_to_balance` leaves every holding of the original
portfolio (cash included) with the share count it had before the call —
only the working copy built by `copy` is traded on. -/
theorem spend_cash_preserves_original {H : Holdings} {targets : Proportions}
    {fuel : Nat} {H₁ : Holdings} {r : LoopResult}
    (h : H.spend_cash_to_balance targets fuel = some (H₁, r)) :
    ∀ i : Nat, (H₁.holdings[i]?).map Holding.shares
        = (H.holdings[i]?).map Holding.shares := by
  have hH : H₁ = H := by
    simp only [Holdings.spend_cash_to_balance, Option.map_eq_some'] at h
    obtain ⟨w, _, h2⟩ := h
    exact (congrArg Prod.fst h2).symm
  intro i
  rw [hH]

theorem exC1_spend0_eval :
    exC1H.spend_cash_to_balance [("equity", 1)] 0
      = some (exC1H, LoopResult.fuelOut) := by
  simp only [Holdings.spend_cash_to_balance, Holdings.copy]
  rw [show exC1H.records = exC1recs from rfl, exC1_init]
  rfl

/-- Witness for C9 on the example portfolio. -/
theorem spend_cash_preserves_original_witness :
    exC1H.spend_cash_to_balance [("equity", 1)] 0
        = some (exC1H, LoopResult.fuelOut)
    ∧ (exC1H.holdings[1]?).map Holding.shares
        = (exC1H.holdings[1]?).map Holding.shares :=
  ⟨exC1_spend0_eval, spend_cash_preserves_original exC1_spend0_eval 1⟩

/-! ## Termination of the buy loop -/

theorem WF_holdings_addShares {hs : List Holding} (i : Nat) (d : ℚ)
    (h : (hs[0]?).map (fun x => (x.current_price, x.buy_additional))
        = some ((1 : ℚ), false)) :
    ((addShares hs i d)[0]?).map (fun x => (x.current_price, x.buy_additional))
      = some ((1 : ℚ), false) := by
  by_cases hi : (0 : Nat) = i
  · subst hi
    cases hh : hs[0]? with
    | none => rw [hh] at h; cases h
    | some h₀ =>
      rw [addShares_get?_self hs 0 d h₀ hh]
      rw [hh] at h
      simpa using h
  · rw [addShares_get?_ne hs i d 0 hi]
    exact h

theorem WF_applyBuy {H : Holdings} (i : Nat) (n : ℚ) (hWF : WF H) :
    WF (applyBuy H i n) :=
  WF_holdings_addShares 0 _ (WF_holdings_addShares i n hWF)

theorem eligibleIdx_addShares (hs : List Holding) (i : Nat) (d : ℚ) :
    eligibleIdx (addShares hs i d) = eligibleIdx hs := by
  unfold eligibleIdx
  rw [addShares_length]
  apply List.filter_congr
  intro j _
  by_cases hji : j = i
  · subst hji
    cases hh : hs[j]? with
    | none =>
      have h2 : (addShares hs j d)[j]? = none :=
        List.getElem?_eq_none
          (by rw [addShares_length]; exact List.getElem?_eq_none_iff.mp hh)
      simp only [hh, h2]
    | some h =>
      simp only [hh, addShares_get?_self hs j d h hh]
  · simp only [addShares_get?_ne hs i d j hji]

theorem eligibleIdx_applyBuy (H : Holdings) (i : Nat) (n : ℚ) :
    eligibleIdx (applyBuy H i n).holdings = eligibleIdx H.holdings := by
  show eligibleIdx (addShares (addShares H.holdings i n) 0 _) = _
  rw [eligibleIdx_addShares, eligibleIdx_addShares]

theorem priceAt_applyBuy (H : Holdings) (i : Nat) (n : ℚ) (j : Nat) :
    priceAt (applyBuy H i n).holdings j = priceAt H.holdings j := by
  show priceAt (addShares (addShares H.holdings i n) 0 _) j = _
  rw [priceAt_addShares, priceAt_addShares]

theorem buy_type_hasKey {H : Holdings} {t : String} {target n : ℚ}
    {H' : Holdings} (h : H.buy_type t target n = some (true, H')) :
    hasTypeKey H.holdings t = true := by
  cases hk : hasTypeKey H.holdings t with
  | true => rfl
  | false => simp [Holdings.buy_type, hk] at h

theorem mem_eligibleIdx_of_typesToBuyIdx {hs : List Holding} {t : String}
    {i : Nat} (ht1 : t ≠ "cash") (ht2 : t ≠ "other")
    (hmem : i ∈ typesToBuyIdx hs t) : i ∈ eligibleIdx hs := by
  obtain ⟨h, hh, hba, hlk⟩ := mem_typesToBuyIdx.mp hmem
  unfold eligibleIdx
  rw [List.mem_filter, List.mem_range]
  refine ⟨lt_of_getElem?_some hh, ?_⟩
  rw [hh]
  have hk : t ∈ keysOf h.composition := (lookup_isSome_iff t h.composition).mp hlk
  obtain ⟨kw, hkw, hfst⟩ := List.mem_map.mp hk
  have hany : h.composition.any (fun kw => kw.1 ≠ "cash" && kw.1 ≠ "other")
      = true := by
    refine List.any_eq_true.mpr ⟨kw, hkw, ?_⟩
    rw [hfst]
    simp [ht1, ht2]
  exact (Bool.and_eq_true _ _).mpr ⟨hba, hany⟩

/-- Dissect a successful pass of the buy loop: some eligible holding
`i`, priced below cash, was bought, and the new state is `applyBuy`. -/
theorem tryTypes_success :
    ∀ {l : List (ℚ × String)} {H : Holdings} {targets : Proportions}
      {H' : Holdings}, tryTypes H targets l = some (some H') →
      ∃ t target, t ≠ "cash" ∧ t ≠ "other"
        ∧ H.buy_type t target 1 = some (true, H')
  | [], _, _, _, h => by simp [tryTypes] at h
  | (d₀, t₀) :: rest, H, targets, H', h => by
    rw [tryTypes] at h
    by_cases hq : t₀ ≠ "cash" ∧ t₀ ≠ "other"
    · rw [if_pos hq] at h
      cases hg : targets.get_type t₀ with
      | none => simp [hg] at h
      | some target =>
        simp only [hg] at h
        cases hb : H.buy_type t₀ target 1 with
        | none => simp [hb] at h
        | some res =>
          obtain ⟨flag, H₂⟩ := res
          cases flag with
          | false =>
            simp only [hb] at h
            exact tryTypes_success h
          | true =>
            simp only [hb, Option.some.injEq] at h
            exact ⟨t₀, target, hq.1, hq.2, by rw [← h]; exact hb⟩
    · rw [if_neg hq] at h
      exact tryTypes_success h

theorem buyPass_success {H : Holdings} {targets : Proportions} {H' : Holdings}
    (hWF : WF H) (hpass : buyPass H targets = some (some H')) :
    ∃ i, i ∈ eligibleIdx H.holdings
      ∧ priceAt H.holdings i * 1 < H.cash
      ∧ H' = applyBuy H i 1 := by
  obtain ⟨t, target, ht1, ht2, hb⟩ := tryTypes_success hpass
  obtain ⟨i, rest, haff, heq⟩ := buy_type_success hb
  have hi : i ∈ affordableIdx H.holdings t 1 := by rw [haff]; simp
  obtain ⟨hmem, hlt⟩ := mem_affordableIdx.mp hi
  exact ⟨i, mem_eligibleIdx_of_typesToBuyIdx ht1 ht2 hmem, hlt, heq⟩

theorem buy_loop_aux (targets : Proportions) (pmin : ℚ) (hpmin : 0 < pmin) :
    ∀ (fuel : Nat) (H : Holdings), WF H →
      (∀ i ∈ eligibleIdx H.holdings, pmin ≤ priceAt H.holdings i) →
      (⌊H.cash / pmin⌋).toNat + 1 ≤ fuel →
      buyLoop fuel H targets ≠ LoopResult.fuelOut
  | 0, H, _, _, hfuel => by omega
  | fuel + 1, H, hWF, hple, hfuel => by
    rw [buyLoop]
    cases hpass : buyPass H targets with
    | none => simp
    | some o =>
      cases o with
      | none => simp
      | some H' =>
        show buyLoop fuel H' targets ≠ LoopResult.fuelOut
        obtain ⟨i, helig, haff, heq⟩ := buyPass_success hWF hpass
        have hne : i ≠ 0 := by
          intro e
          subst e
          obtain ⟨h₀, hh₀, _, hba₀⟩ := WF_elim hWF
          have := (List.mem_filter.mp helig).2
          rw [hh₀] at this
          simp [hba₀] at this
        have hcash' : H'.cash = H.cash - priceAt H.holdings i := by
          rw [heq, cashOf_applyBuy 1 hWF hne, mul_one]
        have hWF' : WF H' := heq ▸ WF_applyBuy i 1 hWF
        have hple' : ∀ j ∈ eligibleIdx H'.holdings,
            pmin ≤ priceAt H'.holdings j := by
          intro j hj
          rw [heq, priceAt_applyBuy]
          rw [heq, eligibleIdx_applyBuy] at hj
          exact hple j hj
        have hp : pmin ≤ priceAt H.holdings i := hple i helig
        have hpc : priceAt H.holdings i < H.cash := by
          rw [mul_one] at haff
          exact haff
        have hfuel' : (⌊H'.cash / pmin⌋).toNat + 1 ≤ fuel := by
          have hmono : H'.cash / pmin ≤ H.cash / pmin - 1 := by
            rw [hcash']
            rw [div_le_iff hpmin, sub_mul, div_mul_cancel₀ _ (ne_of_gt hpmin),
              one_mul]
            linarith
          have h1 : (⌊H'.cash / pmin⌋ : ℤ) ≤ ⌊H.cash / pmin⌋ - 1 := by
            calc (⌊H'.cash / pmin⌋ : ℤ) ≤ ⌊H.cash / pmin - 1⌋ :=
                  Int.floor_le_floor hmono
              _ = ⌊H.cash / pmin⌋ - 1 := Int.floor_sub_one _
          have h2 : (1 : ℤ) ≤ ⌊H.cash / pmin⌋ := by
            rw [Int.le_floor]
            push_cast
            rw [le_div_iff hpmin, one_mul]
            linarith
          omega
        exact buy_loop_aux targets pmin hpmin fuel H' hWF' hple' hfuel'

/-- C4: the buy phase terminates within
`floor(initial_cash / min_eligible_lot_price) + number_of_types` loop
iterations: with that much fuel the fuelled loop never runs out —
each successful purchase spends at least the cheapest eligible lot
price, and a pass without a purchase (or a raised exception) exits. -/
theorem buy_loop_terminates {H : Holdings} {targets : Proportions}
    (pmin : ℚ) (fuel : Nat)
    (hWF : WF H)
    (htv : 0 < H.current_value)
    (hpos : ∀ h ∈ H.holdings, 0 < h.current_price)
    (hpmin : 0 < pmin)
    (hple : ∀ i ∈ eligibleIdx H.holdings, pmin ≤ priceAt H.holdings i)
    (hnt : 1 ≤ numTypes H targets)
    (hfuel : (⌊H.cash / pmin⌋).toNat + numTypes H targets ≤ fuel) :
    buyLoop fuel H targets ≠ LoopResult.fuelOut :=
  buy_loop_aux targets pmin hpmin fuel H hWF hple (by omega)

theorem exC1_alloc_eval :
    exC1H.get_current_allocations = [("cash", 1), ("equity", 0)] := by
  show allocationsL exC1H.holdings = _
  norm_num [allocationsL, valueByType, totalValue, addInto, bump, lookup_cons,
    lookup_nil, Holding.get_current_values_by_type, Holding.current_value,
    exC1H, mkCashHolding, equityHolding]
  simp

theorem exC1_diff_eval :
    Proportions.diff [("equity", (1 : ℚ))] [("cash", 1), ("equity", 0)]
      = [("equity", 1), ("cash", -1)] := by
  norm_num [Proportions.diff, diffStep, bump, lookup_cons, lookup_nil]
  simp

theorem exC1_numTypes : numTypes exC1H [("equity", 1)] = 2 := by
  unfold numTypes
  rw [exC1_alloc_eval, exC1_diff_eval]
  rfl

theorem exC1_cash_eval : exC1H.cash = 1000 := by
  norm_num [Holdings.cash, cashOf, exC1H, mkCashHolding]

theorem exC1_floor_eval : (⌊exC1H.cash / (100 : ℚ)⌋).toNat = 10 := by
  have h : ⌊exC1H.cash / (100 : ℚ)⌋ = 10 := by
    rw [exC1_cash_eval]
    norm_num
  rw [h]
  rfl

theorem exC1_elig_eval : eligibleIdx exC1H.holdings = [1, 2] := by
  norm_num [eligibleIdx, exC1H, mkCashHolding, equityHolding,
    List.range_succ, List.filter_cons]
  simp

theorem exC1_ple :
    ∀ i ∈ eligibleIdx exC1H.holdings,
      (100 : ℚ) ≤ priceAt exC1H.holdings i := by
  rw [exC1_elig_eval]
  intro i hi
  rcases List.mem_cons.mp hi with rfl | hi'
  · norm_num [priceAt, exC1H, mkCashHolding, equityHolding]
  · rcases List.mem_cons.mp hi' with rfl | h0
    · norm_num [priceAt, exC1H, mkCashHolding, equityHolding]
    · simp at h0

/-- Witness for C4: on the example portfolio ($1000 cash, cheapest
eligible lot $100, 2 types in the diff) the loop finishes within
10 + 2 = 12 iterations. -/
theorem buy_loop_terminates_witness :
    (WF exC1H ∧ 0 < exC1H.current_value ∧ (0 : ℚ) < 100
      ∧ 1 ≤ numTypes exC1H [("equity", 1)]
      ∧ (⌊exC1H.cash / (100 : ℚ)⌋).toNat + numTypes exC1H [("equity", 1)] ≤ 12)
    ∧ buyLoop 12 exC1H [("equity", 1)] ≠ LoopResult.fuelOut := by
  have htv : 0 < exC1H.current_value := by
    norm_num [Holdings.current_value, totalValue, exC1H, mkCashHolding,
      equityHolding, Holding.current_value]
  have hnt : 1 ≤ numTypes exC1H [("equity", 1)] := by
    rw [exC1_numTypes]
    omega
  have hfuel : (⌊exC1H.cash / (100 : ℚ)⌋).toNat
      + numTypes exC1H [("equity", 1)] ≤ 12 := by
    rw [exC1_floor_eval, exC1_numTypes]
  exact ⟨⟨exC1_WF, htv, by norm_num, hnt, hfuel⟩,
    buy_loop_terminates 100 12 exC1_WF htv exC1_prices_pos (by norm_num)
      exC1_ple hnt hfuel⟩

end Rebalancer
